import Mathlib

/-!
Verification development for the pair-trading backtest core.

Two simulation engines are embedded from the source:
* `SimpleBacktest` (price-based engine, `src/engine.py`): positions keyed by
  pair id, PnL from spread prices with cost folded into entry/exit prices,
  mean-reversion exits, mark-to-market equity curve, end-of-run close pass.
* `PortfolioManager._run_simulation` (horizon-based engine,
  `src/portfolio.py`): positions as a plain list holding a scheduled
  close date and a pre-labeled PnL, fixed-horizon exits with weekend-skipping
  date arithmetic, explicit transaction-cost accounting.

Money and signal values are embedded as rationals (`ℚ`); dates are naturals
with `d % 7` as the Python `weekday()` index (epoch chosen to be a Monday,
so `d % 7 = 0` is Monday and `d % 7 ∈ {5, 6}` is the weekend).
-/

attribute [local semireducible] Rat.add Rat.mul Rat.inv Rat.sub

namespace PairSim

/-- One row of the predictions dataframe (`05_model_predictions.csv`):
date index, `Pair_ID`, `Z_Score`, `Spread`, `Ridge_Pred`, `LSTM_Pred`,
`Target_Return`, `Target_Direction`. -/
structure Row where
  date : Nat
  pairId : Nat
  zScore : ℚ
  spread : ℚ
  ridgePred : ℚ
  lstmPred : ℚ
  targetReturn : ℚ
  targetDirection : ℚ

/-- Which prediction column `SimpleBacktest.run` reads (`model_col`). -/
inductive ModelCol
  | ridge
  | lstm

/-- `row[model_col]`. -/
def Row.predOf (r : Row) : ModelCol → ℚ
  | .ridge => r.ridgePred
  | .lstm => r.lstmPred

/-! ## Price-based engine (`SimpleBacktest`, src/engine.py) -/

/-- `self.ENTRY_Z = 1.5` (constant set in `SimpleBacktest.__init__`). -/
def ENTRY_Z : ℚ := 3 / 2

/-- `self.EXIT_Z = 0.5`. -/
def EXIT_Z : ℚ := 1 / 2

/-- `self.MODEL_CONFIDENCE = 0.55`. -/
def MODEL_CONFIDENCE : ℚ := 55 / 100

/-- Constructor parameters of `SimpleBacktest`. -/
structure BtConfig where
  initialCapital : ℚ := 10000
  positionRiskPct : ℚ := 2 / 100
  maxPositions : Nat := 3
  transactionCost : ℚ := 4 / 1000

/-- The per-pair position dict value built in `SimpleBacktest._open_position`. -/
structure Position where
  entryPrice : ℚ
  entrySpread : ℚ
  size : ℚ
  direction : Int
  capital : ℚ

/-- A record appended to `self.trades`: entry records carry the direction
string, exit records carry realized PnL and PnL percent.  The `reason`
argument of `_close_position` is not stored in the record. -/
inductive Trade
  | entryT (date pair : Nat) (isLong : Bool)
  | exitT (date pair : Nat) (realizedPnl pnlPct : ℚ)

/-- Mutable state of a `SimpleBacktest` instance.  The Python dict
`self.positions` is embedded as an association list in insertion order
(dict writes only ever happen for keys that are absent). -/
structure BtState where
  realizedEquity : ℚ
  positions : List (Nat × Position)
  trades : List Trade
  equityCurve : List (Nat × ℚ)

/-- State right after `SimpleBacktest.__init__`. -/
def initState (cfg : BtConfig) : BtState :=
  { realizedEquity := cfg.initialCapital
    positions := []
    trades := []
    equityCurve := [] }

/-- `pair_id in self.positions`. -/
def containsPair (ps : List (Nat × Position)) (pid : Nat) : Bool :=
  (ps.find? (fun p => decide (p.1 = pid))).isSome

/-- `self.positions[pair_id]` (first binding for the key). -/
def lookupPair (ps : List (Nat × Position)) (pid : Nat) : Option Position :=
  (ps.find? (fun p => decide (p.1 = pid))).map Prod.snd

/-- `self.positions.pop(pair_id)`'s effect on the dict. -/
def removePair (ps : List (Nat × Position)) (pid : Nat) : List (Nat × Position) :=
  ps.filter (fun p => decide (p.1 ≠ pid))

/-- `SimpleBacktest._open_position`.  The Python body divides by
`spread_price` (`size = capital / spread_price`), which raises
`ZeroDivisionError` when the spread is zero, hence the `Option`. -/
def openPosition (cfg : BtConfig) (s : BtState) (pid : Nat) (spreadPrice : ℚ)
    (date : Nat) (direction : Int) : Option BtState :=
  if spreadPrice = 0 then none
  else
    let capital := s.realizedEquity * cfg.positionRiskPct
    let entryPrice :=
      spreadPrice * (if direction > 0 then 1 + cfg.transactionCost else 1 - cfg.transactionCost)
    let size := capital / spreadPrice
    some { s with
      positions := s.positions ++
        [(pid, { entryPrice := entryPrice, entrySpread := spreadPrice, size := size
                 direction := direction, capital := capital })]
      trades := s.trades ++ [Trade.entryT date pid (direction > 0)] }

/-- `SimpleBacktest._close_position`.  A missing pair id returns the state
unchanged; the `reason` parameter is accepted and dropped, exactly as the
source drops it when building the exit record. -/
def closePosition (cfg : BtConfig) (s : BtState) (pid : Nat) (spreadPrice : ℚ)
    (date : Nat) (_reason : String) : BtState :=
  match lookupPair s.positions pid with
  | none => s
  | some pos =>
    let exitPrice :=
      spreadPrice * (if pos.direction > 0 then 1 - cfg.transactionCost else 1 + cfg.transactionCost)
    let pnl := (exitPrice - pos.entryPrice) * pos.size * (pos.direction : ℚ)
    { s with
      realizedEquity := s.realizedEquity + pnl
      positions := removePair s.positions pid
      trades := s.trades ++
        [Trade.exitT date pid pnl (if pos.capital > 0 then pnl / pos.capital * 100 else 0)] }

/-- One iteration of the exit loop of `SimpleBacktest.run`: look the pair's
row up in the day's data (`continue` when absent) and close on mean
reversion (`abs(z) < EXIT_Z`). -/
def exitStepFor (cfg : BtConfig) (dayData : List Row) (date : Nat) (st : BtState) (pid : Nat) :
    BtState :=
  match dayData.find? (fun r => decide (r.pairId = pid)) with
  | none => st
  | some row =>
    if |row.zScore| < EXIT_Z then
      closePosition cfg st pid row.spread date "Mean Reversion"
    else st

/-- The exit pass of `SimpleBacktest.run`: iterate over a snapshot of the
open pair ids (`list(self.positions.keys())`). -/
def processExits (cfg : BtConfig) (s : BtState) (dayData : List Row) (date : Nat) : BtState :=
  (s.positions.map Prod.fst).foldl (exitStepFor cfg dayData date) s

/-- One iteration of the entry loop of `SimpleBacktest.run` for one row:
skip pairs already held, skip when at the concurrency cap, then branch on
the long/short entry conditions. -/
def entryStep (cfg : BtConfig) (mc : ModelCol) (date : Nat) (s : BtState) (row : Row) :
    Option BtState :=
  if containsPair s.positions row.pairId then some s
  else if cfg.maxPositions ≤ s.positions.length then some s
  else if row.zScore < -ENTRY_Z ∧ row.predOf mc > MODEL_CONFIDENCE then
    openPosition cfg s row.pairId row.spread date 1
  else if row.zScore > ENTRY_Z ∧ row.predOf mc < 1 - MODEL_CONFIDENCE then
    openPosition cfg s row.pairId row.spread date (-1)
  else some s

/-- Left fold propagating the failure of a step (a raised exception aborts
the whole Python loop). -/
def foldSteps {σ β : Type _} (f : σ → β → Option σ) : σ → List β → Option σ
  | s, [] => some s
  | s, b :: l =>
    match f s b with
    | none => none
    | some s' => foldSteps f s' l

/-- `SimpleBacktest._mark_to_market`: sum the unrealized PnL of the open
positions over the day's rows and append one equity point. -/
def markToMarket (cfg : BtConfig) (s : BtState) (dayData : List Row) (date : Nat) : BtState :=
  let unrealized := s.positions.foldl (fun acc p =>
    match dayData.find? (fun r => decide (r.pairId = p.1)) with
    | none => acc
    | some row =>
      let currentPrice :=
        row.spread * (if p.2.direction > 0 then 1 - cfg.transactionCost else 1 + cfg.transactionCost)
      acc + (currentPrice - p.2.entryPrice) * p.2.size * (p.2.direction : ℚ)) 0
  { s with equityCurve := s.equityCurve ++ [(date, s.realizedEquity + unrealized)] }

/-- `df[df.index == date]`. -/
def rowsAt (df : List Row) (d : Nat) : List Row :=
  df.filter (fun r => decide (r.date = d))

/-- `df.index.unique()` in first-occurrence order. -/
def uniqueDates (ds : List Nat) : List Nat :=
  ds.foldl (fun acc d => if d ∈ acc then acc else acc ++ [d]) []

/-- `df.index.max()`. -/
def maxDate (df : List Row) : Nat :=
  (df.map Row.date).foldl max 0

/-- The body of `SimpleBacktest.run` for one date: exits, then entries,
then mark-to-market. -/
def processDate (cfg : BtConfig) (mc : ModelCol) (df : List Row) (s : BtState) (date : Nat) :
    Option BtState :=
  let dayData := rowsAt df date
  let s1 := processExits cfg s dayData date
  match foldSteps (entryStep cfg mc date) s1 dayData with
  | none => none
  | some s2 => some (markToMarket cfg s2 dayData date)

/-- One iteration of the final close pass of `SimpleBacktest.run`: the pair
is closed only if it has a row at the last date (`if not row.empty`). -/
def drainStep (cfg : BtConfig) (lastData : List Row) (lastDate : Nat) (st : BtState) (pid : Nat) :
    BtState :=
  match lastData.find? (fun r => decide (r.pairId = pid)) with
  | none => st
  | some row => closePosition cfg st pid row.spread lastDate "End of Backtest"

/-- Final pass of `SimpleBacktest.run`: for each still-open pair, close it
at the last date only if that pair has a row at the last date. -/
def drain (cfg : BtConfig) (s : BtState) (lastData : List Row) (lastDate : Nat) : BtState :=
  (s.positions.map Prod.fst).foldl (drainStep cfg lastData lastDate) s

/-- `SimpleBacktest.run`: iterate the unique dates, then the final close
pass.  Returns the end state (the source returns `equity_curve, trades`,
both of which are fields of it). -/
def runBacktest (cfg : BtConfig) (mc : ModelCol) (df : List Row) : Option BtState :=
  match foldSteps (processDate cfg mc df) (initState cfg) (uniqueDates (df.map Row.date)) with
  | none => none
  | some s => some (drain cfg s (rowsAt df (maxDate df)) (maxDate df))

/-! ## Horizon-based engine (`PortfolioManager`, src/portfolio.py) -/

/-- Configuration of a `PortfolioManager`: constructor arguments plus the
cost parameters fixed in `__init__` and the `z_threshold` taken from the
strategy engine. -/
structure PortCfg where
  totalCapital : ℚ := 1000
  maxPositions : Nat := 5
  zThreshold : ℚ := 3 / 2
  slippagePct : ℚ := 1 / 1000
  spreadPct : ℚ := 5 / 10000
  shortBorrowRate : ℚ := 2 / 100

/-- The two strategy variants simulated by `calculate_equity_curve`. -/
inductive Strategy
  | lstm
  | hybrid

/-- An element of `open_positions` in `_run_simulation`: the dict
`{'close_date': ..., 'invested': ..., 'pnl': ...}`.  Note that it does not
record which pair the position was opened for. -/
structure PortPos where
  closeDate : Nat
  invested : ℚ
  pnl : ℚ

/-- The loop state of `PortfolioManager._run_simulation`. -/
structure PortState where
  equity : ℚ
  availableCapital : ℚ
  openPositions : List PortPos
  equityHistory : List ℚ
  positionHistory : List Nat
  tradeCount : Nat
  skippedCount : Nat

/-- State before the first iteration of `_run_simulation`. -/
def initPortState (pm : PortCfg) : PortState :=
  { equity := pm.totalCapital
    availableCapital := pm.totalCapital
    openPositions := []
    equityHistory := []
    positionHistory := []
    tradeCount := 0
    skippedCount := 0 }

/-- `PortfolioManager._add_trading_days`, day-by-day with a fuel bound:
advance one calendar day per iteration and count the day iff its weekday
index is below 5 (Monday .. Friday), until `remaining` days are counted.
`7 * days + 7` fuel strictly dominates the number of loop iterations. -/
def addTradingDaysAux : Nat → Nat → Nat → Nat
  | current, _, 0 => current
  | current, remaining, fuel + 1 =>
    if remaining = 0 then current
    else
      let c := current + 1
      if c % 7 < 5 then addTradingDaysAux c (remaining - 1) fuel
      else addTradingDaysAux c remaining fuel

/-- `PortfolioManager._add_trading_days(start_date, days)`. -/
def addTradingDays (startDate days : Nat) : Nat :=
  addTradingDaysAux startDate days (7 * days + 7)

/-- The `long_signal` flag of `_run_simulation` (LSTM variant or hybrid
consensus). -/
def longSignal (pm : PortCfg) (strategy : Strategy) (r : Row) : Bool :=
  match strategy with
  | .lstm => decide (r.zScore < -pm.zThreshold) && decide (r.lstmPred = 1)
  | .hybrid =>
    decide (r.zScore < -pm.zThreshold) && decide (r.lstmPred = 1) && decide (r.ridgePred = 1)

/-- The `short_signal` flag of `_run_simulation`. -/
def shortSignal (pm : PortCfg) (strategy : Strategy) (r : Row) : Bool :=
  match strategy with
  | .lstm => decide (r.zScore > pm.zThreshold) && decide (r.lstmPred = 0)
  | .hybrid =>
    decide (r.zScore > pm.zThreshold) && decide (r.lstmPred = 0) && decide (r.ridgePred = 0)

/-- Step 1 of `_run_simulation`: release every position whose scheduled
close date has arrived (`date >= pos['close_date']`), crediting invested
capital plus PnL back to available capital and PnL to equity. -/
def closeExpired (s : PortState) (date : Nat) : PortState :=
  let closed := s.openPositions.filter (fun p => decide (p.closeDate ≤ date))
  { s with
    availableCapital := s.availableCapital + (closed.map (fun p => p.invested + p.pnl)).sum
    equity := s.equity + (closed.map PortPos.pnl).sum
    openPositions := s.openPositions.filter (fun p => decide (¬ p.closeDate ≤ date)) }

/-- The transaction-cost block of `_run_simulation`: commission plus
slippage plus bid-ask spread, plus the prorated borrow cost for shorts. -/
def tradeCost (pm : PortCfg) (capPerTrade costPerTrade : ℚ) (holdPeriod : Nat)
    (isShort : Bool) : ℚ :=
  let slippageCost := capPerTrade * pm.slippagePct
  let spreadCost := capPerTrade * pm.spreadPct
  let base := costPerTrade + slippageCost + spreadCost
  if isShort then base + capPerTrade * (pm.shortBorrowRate * (holdPeriod : ℚ) / 365)
  else base

/-- The PnL block of `_run_simulation`: realized from the pre-labeled
`Target_Return` / `Target_Direction` captured at entry. -/
def tradePnl (capPerTrade : ℚ) (isLong : Bool) (targetReturn targetDirection : ℚ) : ℚ :=
  if isLong then
    if targetDirection = 1 then capPerTrade * |targetReturn|
    else -(capPerTrade * |targetReturn|)
  else
    if targetDirection = 0 then capPerTrade * |targetReturn|
    else -(capPerTrade * |targetReturn|)

/-- One iteration of the `for date, row in sim_df.iterrows()` loop of
`_run_simulation`: close expired positions, evaluate the signal, open a
position or count a skip, then record equity and position count. -/
def portStep (pm : PortCfg) (strategy : Strategy) (capPerTrade costPerTrade : ℚ)
    (holdPeriod : Nat) (s : PortState) (r : Row) : PortState :=
  let s1 := closeExpired s r.date
  let lng := longSignal pm strategy r
  let sht := shortSignal pm strategy r
  let s2 :=
    if lng || sht then
      if s1.openPositions.length < pm.maxPositions ∧
          capPerTrade * (11 / 10) ≤ s1.availableCapital then
        let totalCost := tradeCost pm capPerTrade costPerTrade holdPeriod sht
        let pnl := tradePnl capPerTrade lng r.targetReturn r.targetDirection
        let closeDate := addTradingDays r.date holdPeriod
        { s1 with
          availableCapital := s1.availableCapital - (capPerTrade + totalCost)
          equity := s1.equity - totalCost
          openPositions := s1.openPositions ++
            [{ closeDate := closeDate, invested := capPerTrade, pnl := pnl }]
          tradeCount := s1.tradeCount + 1 }
      else { s1 with skippedCount := s1.skippedCount + 1 }
    else s1
  { s2 with
    equityHistory := s2.equityHistory ++ [s2.equity]
    positionHistory := s2.positionHistory ++ [s2.openPositions.length] }

/-- `PortfolioManager._run_simulation` over an already sorted row stream.
There is no end-of-stream pass: the loop ends after the last row's record
step. -/
def runSimulation (pm : PortCfg) (strategy : Strategy) (capPerTrade costPerTrade : ℚ)
    (holdPeriod : Nat) (simDf : List Row) : PortState :=
  simDf.foldl (portStep pm strategy capPerTrade costPerTrade holdPeriod) (initPortState pm)

/-! ## Spec-side definitions used to state refinement claims -/

/-- Modelled from the spec: the number of trading (weekday) days in the
calendar interval `(startDate, startDate + n]`. -/
def wdCount (startDate : Nat) : Nat → Nat
  | 0 => 0
  | n + 1 => (if (startDate + 1) % 7 < 5 then 1 else 0) + wdCount (startDate + 1) n

/-- Modelled from the spec: the long entry condition
`z_score < -entry_threshold AND prediction == Up`, where every contributing
model must predict Up. -/
def specLongCond (threshold z : ℚ) (preds : List ℚ) : Prop :=
  z < -threshold ∧ ∀ p ∈ preds, p = 1

/-- Modelled from the spec: the short entry condition
`z_score > entry_threshold AND prediction == Down`, where every contributing
model must predict Down. -/
def specShortCond (threshold z : ℚ) (preds : List ℚ) : Prop :=
  z > threshold ∧ ∀ p ∈ preds, p = 0

instance (threshold z : ℚ) (preds : List ℚ) : Decidable (specLongCond threshold z preds) := by
  unfold specLongCond
  infer_instance

instance (threshold z : ℚ) (preds : List ℚ) : Decidable (specShortCond threshold z preds) := by
  unfold specShortCond
  infer_instance

/-! ## Generic fold lemmas -/

theorem foldSteps_inv {σ β : Type _} (P : σ → Prop) (f : σ → β → Option σ)
    (hf : ∀ s b s', P s → f s b = some s' → P s') :
    ∀ (l : List β) (s s' : σ), P s → foldSteps f s l = some s' → P s' := by
  intro l
  induction l with
  | nil =>
    intro s s' hP h
    simp only [foldSteps, Option.some.injEq] at h
    exact h ▸ hP
  | cons b t ih =>
    intro s s' hP h
    simp only [foldSteps] at h
    cases hfb : f s b with
    | none => rw [hfb] at h; cases h
    | some s1 => rw [hfb] at h; exact ih s1 s' (hf s b s1 hP hfb) h

theorem foldl_inv {σ β : Type _} (P : σ → Prop) (f : σ → β → σ)
    (hf : ∀ s b, P s → P (f s b)) :
    ∀ (l : List β) (s : σ), P s → P (l.foldl f s) := by
  intro l
  induction l with
  | nil => intro s hP; exact hP
  | cons b t ih => intro s hP; exact ih (f s b) (hf s b hP)

/-! ## Position-dict lemmas -/

theorem containsPair_true_iff (ps : List (Nat × Position)) (pid : Nat) :
    containsPair ps pid = true ↔ pid ∈ ps.map Prod.fst := by
  simp [containsPair, List.mem_map]

theorem containsPair_false_iff (ps : List (Nat × Position)) (pid : Nat) :
    containsPair ps pid = false ↔ pid ∉ ps.map Prod.fst := by
  rw [← Bool.not_eq_true, not_iff_not]
  exact containsPair_true_iff ps pid

theorem lookupPair_eq_none_iff (ps : List (Nat × Position)) (pid : Nat) :
    lookupPair ps pid = none ↔ pid ∉ ps.map Prod.fst := by
  rw [← containsPair_false_iff]
  unfold lookupPair containsPair
  cases ps.find? (fun q => decide (q.1 = pid)) <;> simp

theorem removePair_sublist (ps : List (Nat × Position)) (pid : Nat) :
    List.Sublist (removePair ps pid) ps :=
  List.filter_sublist ps

theorem not_mem_keys_removePair (ps : List (Nat × Position)) (pid : Nat) :
    pid ∉ (removePair ps pid).map Prod.fst := by
  simp only [removePair, List.mem_map]
  rintro ⟨p, hp, rfl⟩
  have := List.of_mem_filter hp
  simp at this

theorem closePosition_not_mem_keys (cfg : BtConfig) (s : BtState) (pid : Nat) (spread : ℚ)
    (date : Nat) (reason : String) :
    pid ∉ (closePosition cfg s pid spread date reason).positions.map Prod.fst := by
  unfold closePosition
  cases h : lookupPair s.positions pid with
  | none => exact (lookupPair_eq_none_iff s.positions pid).1 h
  | some pos => exact not_mem_keys_removePair s.positions pid

theorem closePosition_keys_sublist (cfg : BtConfig) (s : BtState) (pid : Nat) (spread : ℚ)
    (date : Nat) (reason : String) :
    List.Sublist ((closePosition cfg s pid spread date reason).positions.map Prod.fst)
      (s.positions.map Prod.fst) := by
  unfold closePosition
  cases h : lookupPair s.positions pid with
  | none => exact List.Sublist.refl _
  | some pos => exact (removePair_sublist s.positions pid).map Prod.fst

theorem closePosition_equityCurve (cfg : BtConfig) (s : BtState) (pid : Nat) (spread : ℚ)
    (date : Nat) (reason : String) :
    (closePosition cfg s pid spread date reason).equityCurve = s.equityCurve := by
  unfold closePosition
  cases h : lookupPair s.positions pid <;> rfl

theorem openPosition_eq_some {cfg : BtConfig} {s : BtState} {pid : Nat} {spread : ℚ}
    {date : Nat} {dir : Int} {s' : BtState}
    (h : openPosition cfg s pid spread date dir = some s') :
    spread ≠ 0 ∧
      s' = { s with
        positions := s.positions ++
          [(pid, { entryPrice := spread *
                     (if dir > 0 then 1 + cfg.transactionCost else 1 - cfg.transactionCost)
                   entrySpread := spread
                   size := s.realizedEquity * cfg.positionRiskPct / spread
                   direction := dir
                   capital := s.realizedEquity * cfg.positionRiskPct })]
        trades := s.trades ++ [Trade.entryT date pid (dir > 0)] } := by
  unfold openPosition at h
  split at h
  · cases h
  · rename_i hz
    refine ⟨hz, ?_⟩
    simpa [eq_comm] using h

theorem entryStep_cases {cfg : BtConfig} {mc : ModelCol} {date : Nat} {s : BtState} {row : Row}
    {s' : BtState} (h : entryStep cfg mc date s row = some s') :
    s' = s ∨
      (containsPair s.positions row.pairId = false ∧ s.positions.length < cfg.maxPositions ∧
        ∃ dir, openPosition cfg s row.pairId row.spread date dir = some s') := by
  unfold entryStep at h
  split at h
  · left; cases h; rfl
  · rename_i hc
    split at h
    · left; cases h; rfl
    · rename_i hm
      have hc' : containsPair s.positions row.pairId = false := by
        simpa using hc
      have hm' : s.positions.length < cfg.maxPositions := by omega
      split at h
      · exact Or.inr ⟨hc', hm', 1, h⟩
      · split at h
        · exact Or.inr ⟨hc', hm', -1, h⟩
        · left; cases h; rfl

/-! ## Concrete fixtures used by witnesses and counterexamples -/

/-- The constructor-default price-engine configuration. -/
def exCfg : BtConfig := {}

/-- The constructor-default portfolio configuration. -/
def exPm : PortCfg := {}

/-- A portfolio configuration whose position limit is zero, so every signal
is rejected. -/
def exPmNoCap : PortCfg := { maxPositions := 0 }

/-- A signal row that fires a long entry in both engines (z = -2, all
models predict Up). -/
def exRowLong : Row :=
  { date := 0, pairId := 0, zScore := -2, spread := 1, ridgePred := 1, lstmPred := 1,
    targetReturn := 1 / 10, targetDirection := 1 }

/-- A signal row that fires a short entry in both engines (z = 2, all
models predict Down). -/
def exRowShort : Row :=
  { date := 0, pairId := 0, zScore := 2, spread := 1, ridgePred := 0, lstmPred := 0,
    targetReturn := 1 / 10, targetDirection := 0 }

/-! ## C5 -/

/-- C5: closing a pair_id with no open position is a no-op that leaves the
ledger state (positions, realized equity, trade log) unchanged, and closing
the same pair_id twice on the same date equals closing it once. -/
theorem c5_close_idempotent :
    (∀ (cfg : BtConfig) (s : BtState) (pid : Nat) (spread : ℚ) (date : Nat) (reason : String),
        containsPair s.positions pid = false →
        closePosition cfg s pid spread date reason = s) ∧
    (∀ (cfg : BtConfig) (s : BtState) (pid : Nat) (spread : ℚ) (date : Nat) (reason : String),
        closePosition cfg (closePosition cfg s pid spread date reason) pid spread date reason =
          closePosition cfg s pid spread date reason) := by
  have hnoop : ∀ (cfg : BtConfig) (s : BtState) (pid : Nat) (spread : ℚ) (date : Nat)
      (reason : String), containsPair s.positions pid = false →
      closePosition cfg s pid spread date reason = s := by
    intro cfg s pid spread date reason h
    unfold closePosition
    rw [(lookupPair_eq_none_iff s.positions pid).2 ((containsPair_false_iff s.positions pid).1 h)]
  refine ⟨hnoop, ?_⟩
  intro cfg s pid spread date reason
  apply hnoop
  rw [containsPair_false_iff]
  exact closePosition_not_mem_keys cfg s pid spread date reason

/-- Witness for C5 at a concrete ledger state. -/
theorem c5_close_idempotent_witness :
    closePosition exCfg (initState exCfg) 3 10 0 "End of Backtest" = initState exCfg :=
  c5_close_idempotent.1 exCfg (initState exCfg) 3 10 0 "End of Backtest" (by decide)

/-! ## C10 -/

/-- C10: in the price-based engine, `_open_position` divides the allocated
capital by the day's spread price with no zero guard; the operation succeeds
for every nonzero spread, producing the documented position record, and
fails (raises) exactly when the spread is zero. -/
theorem c10_open_position_total :
    (∀ (cfg : BtConfig) (s : BtState) (pid : Nat) (spread : ℚ) (date : Nat) (dir : Int),
        spread ≠ 0 →
        openPosition cfg s pid spread date dir =
          some { s with
            positions := s.positions ++
              [(pid, { entryPrice := spread *
                         (if dir > 0 then 1 + cfg.transactionCost else 1 - cfg.transactionCost)
                       entrySpread := spread
                       size := s.realizedEquity * cfg.positionRiskPct / spread
                       direction := dir
                       capital := s.realizedEquity * cfg.positionRiskPct })]
            trades := s.trades ++ [Trade.entryT date pid (dir > 0)] }) ∧
    (∀ (cfg : BtConfig) (s : BtState) (pid : Nat) (spread : ℚ) (date : Nat) (dir : Int),
        spread = 0 → openPosition cfg s pid spread date dir = none) := by
  constructor
  · intro cfg s pid spread date dir h
    unfold openPosition
    rw [if_neg h]
  · intro cfg s pid spread date dir h
    unfold openPosition
    rw [if_pos h]

/-- Witness for C10: a nonzero spread opens, a zero spread raises. -/
theorem c10_open_position_total_witness :
    (openPosition exCfg (initState exCfg) 3 10 0 1).isSome = true ∧
      openPosition exCfg (initState exCfg) 3 0 0 1 = none := by
  constructor
  · rw [c10_open_position_total.1 exCfg (initState exCfg) 3 10 0 1 (by norm_num)]
    rfl
  · exact c10_open_position_total.2 exCfg (initState exCfg) 3 0 0 1 rfl

/-! ## C7 -/

/-- C7: the total transaction cost of an opened trade is the fixed
commission plus `capital * slippage_pct` plus `capital * spread_pct`, plus
— exactly when the trade is a short — a borrow cost
`capital * annual_borrow_rate * holding_days / 365`; the total cost is
deducted from equity at entry; long and short signals are mutually
exclusive whenever the entry threshold is nonnegative. -/
theorem c7_trade_cost :
    (∀ (pm : PortCfg) (cap cost : ℚ) (hold : Nat) (isShort : Bool),
        tradeCost pm cap cost hold isShort =
          cost + cap * pm.slippagePct + cap * pm.spreadPct +
            (if isShort then cap * pm.shortBorrowRate * (hold : ℚ) / 365 else 0)) ∧
    (∀ (pm : PortCfg) (strategy : Strategy) (cap cost : ℚ) (hold : Nat) (s : PortState) (r : Row),
        (longSignal pm strategy r || shortSignal pm strategy r) = true →
        ((closeExpired s r.date).openPositions.length < pm.maxPositions ∧
          cap * (11 / 10) ≤ (closeExpired s r.date).availableCapital) →
        (portStep pm strategy cap cost hold s r).equity =
          (closeExpired s r.date).equity -
            tradeCost pm cap cost hold (shortSignal pm strategy r)) ∧
    (∀ (pm : PortCfg) (strategy : Strategy) (r : Row), 0 ≤ pm.zThreshold →
        ¬(longSignal pm strategy r = true ∧ shortSignal pm strategy r = true)) := by
  refine ⟨?_, ?_, ?_⟩
  · intro pm cap cost hold isShort
    unfold tradeCost
    cases isShort
    · simp
    · simp
      ring
  · intro pm strategy cap cost hold s r hsig hcan
    unfold portStep
    simp only [hsig, if_true, if_pos hcan]
  · intro pm strategy r ht ⟨hl, hs⟩
    cases strategy <;> simp [longSignal, shortSignal] at hl hs <;> linarith [hl.1, hs.1]

/-- Witness for C7 at a concrete executed short trade. -/
theorem c7_trade_cost_witness :
    (portStep exPm .lstm 100 2 10 (initPortState exPm) exRowShort).equity =
      (closeExpired (initPortState exPm) exRowShort.date).equity -
        tradeCost exPm 100 2 10 (shortSignal exPm .lstm exRowShort) :=
  c7_trade_cost.2.1 exPm .lstm 100 2 10 (initPortState exPm) exRowShort (by decide) (by decide)

/-! ## C9 -/

/-- C9: when a valid entry signal fires but the capital buffer or the
max-positions limit rejects it, the step only increments the skipped count
and appends the recording entries: no position is created and available
capital and equity are unchanged from the post-expiry state. -/
theorem c9_skip_entry (pm : PortCfg) (strategy : Strategy) (cap cost : ℚ) (hold : Nat)
    (s : PortState) (r : Row)
    (hsig : (longSignal pm strategy r || shortSignal pm strategy r) = true)
    (hreject : ¬((closeExpired s r.date).openPositions.length < pm.maxPositions ∧
        cap * (11 / 10) ≤ (closeExpired s r.date).availableCapital)) :
    portStep pm strategy cap cost hold s r =
      { closeExpired s r.date with
        skippedCount := (closeExpired s r.date).skippedCount + 1
        equityHistory := (closeExpired s r.date).equityHistory ++
          [(closeExpired s r.date).equity]
        positionHistory := (closeExpired s r.date).positionHistory ++
          [(closeExpired s r.date).openPositions.length] } := by
  unfold portStep
  simp only [hsig, if_true, if_neg hreject]

/-- Witness for C9: zero position limit rejects a firing signal. -/
theorem c9_skip_entry_witness :
    portStep exPmNoCap .lstm 100 2 10 (initPortState exPmNoCap) exRowLong =
      { closeExpired (initPortState exPmNoCap) exRowLong.date with
        skippedCount := (closeExpired (initPortState exPmNoCap) exRowLong.date).skippedCount + 1
        equityHistory := (closeExpired (initPortState exPmNoCap) exRowLong.date).equityHistory ++
          [(closeExpired (initPortState exPmNoCap) exRowLong.date).equity]
        positionHistory :=
          (closeExpired (initPortState exPmNoCap) exRowLong.date).positionHistory ++
            [(closeExpired (initPortState exPmNoCap) exRowLong.date).openPositions.length] } :=
  c9_skip_entry exPmNoCap .lstm 100 2 10 (initPortState exPmNoCap) exRowLong
    (by decide) (by decide)

/-! ## C8 -/

/-- Length of the weekend run starting right after `current` (0 on a day
followed by a weekday, 2 on a Friday, 1 on a Saturday). -/
def wkGap (current : Nat) : Nat :=
  if (current + 1) % 7 = 5 then 2 else if (current + 1) % 7 = 6 then 1 else 0

theorem addTradingDaysAux_zero (current fuel : Nat) :
    addTradingDaysAux current 0 fuel = current := by
  cases fuel <;> rfl

theorem aux_weekday_step (current remaining fuel : Nat) (h0 : remaining ≠ 0)
    (hw : (current + 1) % 7 < 5) :
    addTradingDaysAux current remaining (fuel + 1) =
      addTradingDaysAux (current + 1) (remaining - 1) fuel := by
  simp only [addTradingDaysAux]
  rw [if_neg h0, if_pos hw]

theorem aux_weekend_step (current remaining fuel : Nat) (h0 : remaining ≠ 0)
    (hw : ¬((current + 1) % 7 < 5)) :
    addTradingDaysAux current remaining (fuel + 1) =
      addTradingDaysAux (current + 1) remaining fuel := by
  simp only [addTradingDaysAux]
  rw [if_neg h0, if_neg hw]

theorem wkGap_le_two (x : Nat) : wkGap x ≤ 2 := by
  unfold wkGap
  split_ifs <;> omega

theorem addTradingDaysAux_spec :
    ∀ (fuel current remaining : Nat), 3 * remaining + wkGap current ≤ fuel →
      wdCount current (addTradingDaysAux current remaining fuel - current) = remaining ∧
      current ≤ addTradingDaysAux current remaining fuel ∧
      (1 ≤ remaining → (addTradingDaysAux current remaining fuel) % 7 < 5) := by
  intro fuel
  induction fuel with
  | zero =>
    intro current remaining h
    have hr : remaining = 0 := by omega
    subst hr
    simp [addTradingDaysAux, wdCount]
  | succ f ih =>
    intro current remaining h
    match remaining with
    | 0 => simp [addTradingDaysAux_zero, wdCount]
    | r + 1 =>
      by_cases hw : (current + 1) % 7 < 5
      · rw [aux_weekday_step current (r + 1) f (Nat.succ_ne_zero r) hw]
        have hf : 3 * r + wkGap (current + 1) ≤ f := by
          have := wkGap_le_two (current + 1)
          omega
        obtain ⟨ha, hb, hc⟩ := ih (current + 1) r hf
        simp only [Nat.add_sub_cancel] at *
        refine ⟨?_, by omega, ?_⟩
        · have hsub : addTradingDaysAux (current + 1) r f - current =
              (addTradingDaysAux (current + 1) r f - (current + 1)) + 1 := by omega
          rw [hsub]
          simp only [wdCount, if_pos hw, ha]
          omega
        · intro _
          rcases Nat.eq_zero_or_pos r with hr0 | hrpos
          · subst hr0
            rw [addTradingDaysAux_zero]
            exact hw
          · exact hc hrpos
      · rw [aux_weekend_step current (r + 1) f (Nat.succ_ne_zero r) hw]
        have h56 : (current + 1) % 7 = 5 ∨ (current + 1) % 7 = 6 := by omega
        have hgc : wkGap (current + 1) + 1 ≤ wkGap current := by
          unfold wkGap
          split_ifs <;> omega
        have hf : 3 * (r + 1) + wkGap (current + 1) ≤ f := by omega
        obtain ⟨ha, hb, hc⟩ := ih (current + 1) (r + 1) hf
        refine ⟨?_, by omega, ?_⟩
        · have hsub : addTradingDaysAux (current + 1) (r + 1) f - current =
              (addTradingDaysAux (current + 1) (r + 1) f - (current + 1)) + 1 := by omega
          rw [hsub]
          simp only [wdCount, if_neg hw, ha, Nat.zero_add]
        · intro _
          exact hc (Nat.succ_le_succ (Nat.zero_le r))

/-- C8: `_add_trading_days` advances one calendar day at a time, counting
only days whose weekday index is below 5, until exactly `days` trading days
are counted: the interval it spans contains exactly `days` weekdays, the
result does not precede the start, a positive count always lands on a
weekday, and a Friday start with 5 trading days lands exactly on the
following Friday (skipping the weekend). -/
theorem c8_add_trading_days :
    (∀ startDate days : Nat,
        wdCount startDate (addTradingDays startDate days - startDate) = days ∧
        startDate ≤ addTradingDays startDate days ∧
        (1 ≤ days → (addTradingDays startDate days) % 7 < 5)) ∧
    (∀ startDate : Nat, startDate % 7 = 4 → addTradingDays startDate 5 = startDate + 7) := by
  constructor
  · intro startDate days
    have h : 3 * days + wkGap startDate ≤ 7 * days + 7 := by
      have := wkGap_le_two startDate
      omega
    exact addTradingDaysAux_spec (7 * days + 7) startDate days h
  · intro start h4
    show addTradingDaysAux start 5 (41 + 1) = start + 7
    rw [aux_weekend_step start 5 41 (by omega) (by omega)]
    show addTradingDaysAux (start + 1) 5 (40 + 1) = start + 7
    rw [aux_weekend_step (start + 1) 5 40 (by omega) (by omega)]
    show addTradingDaysAux (start + 2) 5 (39 + 1) = start + 7
    rw [aux_weekday_step (start + 2) 5 39 (by omega) (by omega)]
    show addTradingDaysAux (start + 3) 4 (38 + 1) = start + 7
    rw [aux_weekday_step (start + 3) 4 38 (by omega) (by omega)]
    show addTradingDaysAux (start + 4) 3 (37 + 1) = start + 7
    rw [aux_weekday_step (start + 4) 3 37 (by omega) (by omega)]
    show addTradingDaysAux (start + 5) 2 (36 + 1) = start + 7
    rw [aux_weekday_step (start + 5) 2 36 (by omega) (by omega)]
    show addTradingDaysAux (start + 6) 1 (35 + 1) = start + 7
    rw [aux_weekday_step (start + 6) 1 35 (by omega) (by omega)]
    show addTradingDaysAux (start + 7) 0 35 = start + 7
    rw [addTradingDaysAux_zero]

/-- Witness for C8 at the Friday boundary (date 4 is a Friday). -/
theorem c8_add_trading_days_witness :
    wdCount 4 (addTradingDays 4 5 - 4) = 5 ∧ (addTradingDays 4 5) % 7 < 5 ∧
      addTradingDays 4 5 = 4 + 7 :=
  ⟨(c8_add_trading_days.1 4 5).1, (c8_add_trading_days.1 4 5).2.2 (by decide),
    c8_add_trading_days.2 4 (by decide)⟩

/-! ## C4 -/

theorem entryStep_guards (cfg : BtConfig) (mc : ModelCol) (date : Nat) (s : BtState) (row : Row)
    (hc : containsPair s.positions row.pairId = false)
    (hm : s.positions.length < cfg.maxPositions) :
    entryStep cfg mc date s row =
      if row.zScore < -ENTRY_Z ∧ row.predOf mc > MODEL_CONFIDENCE then
        openPosition cfg s row.pairId row.spread date 1
      else if row.zScore > ENTRY_Z ∧ row.predOf mc < 1 - MODEL_CONFIDENCE then
        openPosition cfg s row.pairId row.spread date (-1)
      else some s := by
  unfold entryStep
  rw [if_neg (by simp [hc]), if_neg (by omega)]

/-- C4: for binary model predictions, an entry is attempted exactly when
`z < -entry_threshold` and the prediction(s) say Up (long) or
`z > entry_threshold` and the prediction(s) say Down (short); the hybrid
variant requires all contributing models to agree.  Stated for the guarded
entry step of the price-based engine and for the signal flags of the
horizon-based engine. -/
theorem c4_entry_condition :
    (∀ (cfg : BtConfig) (mc : ModelCol) (date : Nat) (s : BtState) (r : Row),
        (r.predOf mc = 0 ∨ r.predOf mc = 1) →
        containsPair s.positions r.pairId = false →
        s.positions.length < cfg.maxPositions →
        r.spread ≠ 0 →
        (((entryStep cfg mc date s r).map (fun t => t.positions.length) =
            some (s.positions.length + 1)) ↔
          (specLongCond ENTRY_Z r.zScore [r.predOf mc] ∨
            specShortCond ENTRY_Z r.zScore [r.predOf mc])) ∧
        (specLongCond ENTRY_Z r.zScore [r.predOf mc] →
          entryStep cfg mc date s r = openPosition cfg s r.pairId r.spread date 1) ∧
        (specShortCond ENTRY_Z r.zScore [r.predOf mc] →
          entryStep cfg mc date s r = openPosition cfg s r.pairId r.spread date (-1))) ∧
    (∀ (pm : PortCfg) (r : Row),
        (longSignal pm .lstm r = true ↔ specLongCond pm.zThreshold r.zScore [r.lstmPred]) ∧
        (shortSignal pm .lstm r = true ↔ specShortCond pm.zThreshold r.zScore [r.lstmPred]) ∧
        (longSignal pm .hybrid r = true ↔
          specLongCond pm.zThreshold r.zScore [r.lstmPred, r.ridgePred]) ∧
        (shortSignal pm .hybrid r = true ↔
          specShortCond pm.zThreshold r.zScore [r.lstmPred, r.ridgePred])) := by
  constructor
  · intro cfg mc date s r hbin hc hm hsp
    have hgt : r.predOf mc > MODEL_CONFIDENCE ↔ r.predOf mc = 1 := by
      rcases hbin with h0 | h1
      · rw [h0]
        unfold MODEL_CONFIDENCE
        norm_num
      · rw [h1]
        unfold MODEL_CONFIDENCE
        norm_num
    have hlt : r.predOf mc < 1 - MODEL_CONFIDENCE ↔ r.predOf mc = 0 := by
      rcases hbin with h0 | h1
      · rw [h0]
        unfold MODEL_CONFIDENCE
        norm_num
      · rw [h1]
        unfold MODEL_CONFIDENCE
        norm_num
    have hspecL : specLongCond ENTRY_Z r.zScore [r.predOf mc] ↔
        (r.zScore < -ENTRY_Z ∧ r.predOf mc > MODEL_CONFIDENCE) := by
      unfold specLongCond
      simp [hgt]
    have hspecS : specShortCond ENTRY_Z r.zScore [r.predOf mc] ↔
        (r.zScore > ENTRY_Z ∧ r.predOf mc < 1 - MODEL_CONFIDENCE) := by
      unfold specShortCond
      simp [hlt]
    have hguard := entryStep_guards cfg mc date s r hc hm
    have hexcl : ¬(r.zScore < -ENTRY_Z ∧ r.zScore > ENTRY_Z) := by
      unfold ENTRY_Z
      rintro ⟨ha, hb⟩
      linarith
    have hopen : ∀ dir : Int,
        (openPosition cfg s r.pairId r.spread date dir).map (fun t => t.positions.length) =
          some (s.positions.length + 1) := by
      intro dir
      unfold openPosition
      rw [if_neg hsp]
      simp
    by_cases hA : r.zScore < -ENTRY_Z ∧ r.predOf mc > MODEL_CONFIDENCE
    · rw [hguard, if_pos hA]
      refine ⟨?_, fun _ => rfl, ?_⟩
      · rw [hopen 1]
        simp only [true_iff, eq_self_iff_true]
        exact Or.inl (hspecL.2 hA)
      · intro hS
        exact absurd ⟨hA.1, (hspecS.1 hS).1⟩ hexcl
    · rw [hguard, if_neg hA]
      by_cases hB : r.zScore > ENTRY_Z ∧ r.predOf mc < 1 - MODEL_CONFIDENCE
      · rw [if_pos hB]
        refine ⟨?_, ?_, fun _ => rfl⟩
        · rw [hopen (-1)]
          simp only [true_iff, eq_self_iff_true]
          exact Or.inr (hspecS.2 hB)
        · intro hL
          exact absurd (hspecL.1 hL) hA
      · rw [if_neg hB]
        refine ⟨?_, ?_, ?_⟩
        · constructor
          · intro hcontra
            simp at hcontra
          · rintro (hL | hS)
            · exact absurd (hspecL.1 hL) hA
            · exact absurd (hspecS.1 hS) hB
        · intro hL
          exact absurd (hspecL.1 hL) hA
        · intro hS
          exact absurd (hspecS.1 hS) hB
  · intro pm r
    refine ⟨?_, ?_, ?_, ?_⟩ <;>
      · simp only [longSignal, shortSignal, specLongCond, specShortCond, Bool.and_eq_true,
          decide_eq_true_eq, List.mem_singleton, List.mem_cons, List.not_mem_nil,
          List.mem_nil_iff, forall_eq_or_imp, forall_eq]
        tauto

/-- Witness for C4: the long row opens a long position in the price engine. -/
theorem c4_entry_condition_witness :
    entryStep exCfg .lstm 0 (initState exCfg) exRowLong =
      openPosition exCfg (initState exCfg) exRowLong.pairId exRowLong.spread 0 1 ∧
      longSignal exPm .hybrid exRowLong = true :=
  ⟨(c4_entry_condition.1 exCfg .lstm 0 (initState exCfg) exRowLong (by decide) (by decide)
      (by decide) (by decide)).2.1 (by decide),
    ((c4_entry_condition.2 exPm exRowLong).2.2.1).2 (by decide)⟩

/-! ## C6 -/

theorem exitStepFor_keys_sublist (cfg : BtConfig) (dayData : List Row) (date : Nat)
    (st : BtState) (pid : Nat) :
    List.Sublist ((exitStepFor cfg dayData date st pid).positions.map Prod.fst)
      (st.positions.map Prod.fst) := by
  unfold exitStepFor
  split
  · exact List.Sublist.refl _
  · split
    · exact closePosition_keys_sublist _ _ _ _ _ _
    · exact List.Sublist.refl _

theorem drainStep_keys_sublist (cfg : BtConfig) (lastData : List Row) (lastDate : Nat)
    (st : BtState) (pid : Nat) :
    List.Sublist ((drainStep cfg lastData lastDate st pid).positions.map Prod.fst)
      (st.positions.map Prod.fst) := by
  unfold drainStep
  split
  · exact List.Sublist.refl _
  · exact closePosition_keys_sublist _ _ _ _ _ _

theorem processExits_keys_sublist (cfg : BtConfig) (dayData : List Row) (date : Nat)
    (s : BtState) :
    List.Sublist ((processExits cfg s dayData date).positions.map Prod.fst)
      (s.positions.map Prod.fst) :=
  foldl_inv (fun st => List.Sublist (st.positions.map Prod.fst) (s.positions.map Prod.fst))
    (exitStepFor cfg dayData date)
    (fun st pid hP => List.Sublist.trans (exitStepFor_keys_sublist cfg dayData date st pid) hP)
    (s.positions.map Prod.fst) s (List.Sublist.refl _)

theorem drain_keys_sublist (cfg : BtConfig) (lastData : List Row) (lastDate : Nat) (s : BtState) :
    List.Sublist ((drain cfg s lastData lastDate).positions.map Prod.fst)
      (s.positions.map Prod.fst) :=
  foldl_inv (fun st => List.Sublist (st.positions.map Prod.fst) (s.positions.map Prod.fst))
    (drainStep cfg lastData lastDate)
    (fun st pid hP => List.Sublist.trans (drainStep_keys_sublist cfg lastData lastDate st pid) hP)
    (s.positions.map Prod.fst) s (List.Sublist.refl _)

theorem entryStep_len_le {cfg : BtConfig} {mc : ModelCol} {date : Nat} {s : BtState} {r : Row}
    {s' : BtState} (h : entryStep cfg mc date s r = some s')
    (hinv : s.positions.length ≤ cfg.maxPositions) :
    s'.positions.length ≤ cfg.maxPositions := by
  rcases entryStep_cases h with rfl | ⟨hc, hm, dir, hop⟩
  · exact hinv
  · obtain ⟨-, rfl⟩ := openPosition_eq_some hop
    simp only [List.length_append, List.length_cons, List.length_nil]
    omega

theorem processDate_len_le {cfg : BtConfig} {mc : ModelCol} {df : List Row} {s : BtState}
    {date : Nat} {s' : BtState} (h : processDate cfg mc df s date = some s')
    (hinv : s.positions.length ≤ cfg.maxPositions) :
    s'.positions.length ≤ cfg.maxPositions := by
  simp only [processDate] at h
  cases hfold : foldSteps (entryStep cfg mc date) (processExits cfg s (rowsAt df date) date)
      (rowsAt df date) with
  | none => rw [hfold] at h; cases h
  | some s2 =>
    rw [hfold] at h
    cases h
    have h1 : (processExits cfg s (rowsAt df date) date).positions.length ≤
        s.positions.length := by
      have hle := (processExits_keys_sublist cfg (rowsAt df date) date s).length_le
      simpa using hle
    have h2 : s2.positions.length ≤ cfg.maxPositions :=
      foldSteps_inv (fun st => st.positions.length ≤ cfg.maxPositions) _
        (fun st b st' hP hst => entryStep_len_le hst hP) _ _ _ (le_trans h1 hinv) hfold
    exact h2

/-- A price-engine configuration with a zero position limit. -/
def exCfgZero : BtConfig := { maxPositions := 0 }

/-- C6: the number of open positions never exceeds `max_positions` in
either engine: an entry evaluated at the cap opens nothing (price engine
returns the state unchanged, horizon engine leaves the position list
unchanged), every entry step preserves the bound, and the bound holds at
the end of every run (it holds initially since both ledgers start empty). -/
theorem c6_max_positions :
    (∀ (cfg : BtConfig) (mc : ModelCol) (date : Nat) (s : BtState) (r : Row),
        cfg.maxPositions ≤ s.positions.length → entryStep cfg mc date s r = some s) ∧
    (∀ (cfg : BtConfig) (mc : ModelCol) (date : Nat) (s : BtState) (r : Row) (s' : BtState),
        entryStep cfg mc date s r = some s' →
        s.positions.length ≤ cfg.maxPositions → s'.positions.length ≤ cfg.maxPositions) ∧
    (∀ (cfg : BtConfig) (mc : ModelCol) (df : List Row) (s : BtState),
        runBacktest cfg mc df = some s → s.positions.length ≤ cfg.maxPositions) ∧
    (∀ (pm : PortCfg) (strategy : Strategy) (cap cost : ℚ) (hold : Nat) (s : PortState) (r : Row),
        pm.maxPositions ≤ (closeExpired s r.date).openPositions.length →
        (portStep pm strategy cap cost hold s r).openPositions =
          (closeExpired s r.date).openPositions) ∧
    (∀ (pm : PortCfg) (strategy : Strategy) (cap cost : ℚ) (hold : Nat) (s : PortState) (r : Row),
        s.openPositions.length ≤ pm.maxPositions →
        (portStep pm strategy cap cost hold s r).openPositions.length ≤ pm.maxPositions) ∧
    (∀ (pm : PortCfg) (strategy : Strategy) (cap cost : ℚ) (hold : Nat) (simDf : List Row),
        (runSimulation pm strategy cap cost hold simDf).openPositions.length ≤
          pm.maxPositions) := by
  have hstep : ∀ (pm : PortCfg) (strategy : Strategy) (cap cost : ℚ) (hold : Nat) (s : PortState)
      (r : Row), s.openPositions.length ≤ pm.maxPositions →
      (portStep pm strategy cap cost hold s r).openPositions.length ≤ pm.maxPositions := by
    intro pm strategy cap cost hold s r hinv
    have h1 : (closeExpired s r.date).openPositions.length ≤ s.openPositions.length := by
      simp only [closeExpired]
      exact List.length_filter_le _ _
    simp only [portStep]
    by_cases hsig : (longSignal pm strategy r || shortSignal pm strategy r) = true
    · by_cases hcan : ((closeExpired s r.date).openPositions.length < pm.maxPositions ∧
          cap * (11 / 10) ≤ (closeExpired s r.date).availableCapital)
      · rw [if_pos hsig, if_pos hcan]
        simp only [List.length_append, List.length_cons, List.length_nil]
        omega
      · rw [if_pos hsig, if_neg hcan]
        exact le_trans h1 hinv
    · rw [if_neg hsig]
      exact le_trans h1 hinv
  refine ⟨?_, ?_, ?_, ?_, hstep, ?_⟩
  · intro cfg mc date s r h
    unfold entryStep
    by_cases hc : containsPair s.positions r.pairId = true
    · rw [if_pos hc]
    · rw [if_neg hc, if_pos h]
  · intro cfg mc date s r s' h hinv
    exact entryStep_len_le h hinv
  · intro cfg mc df s h
    simp only [runBacktest] at h
    cases hfold : foldSteps (processDate cfg mc df) (initState cfg)
        (uniqueDates (df.map Row.date)) with
    | none => rw [hfold] at h; cases h
    | some s1 =>
      rw [hfold] at h
      cases h
      have h1 : s1.positions.length ≤ cfg.maxPositions :=
        foldSteps_inv (fun st => st.positions.length ≤ cfg.maxPositions) _
          (fun st b st' hP hst => processDate_len_le hst hP) _ _ _ (Nat.zero_le _) hfold
      have h2 := (drain_keys_sublist cfg (rowsAt df (maxDate df)) (maxDate df) s1).length_le
      simp only [List.length_map] at h2
      exact le_trans h2 h1
  · intro pm strategy cap cost hold s r h
    simp only [portStep]
    have hno : ¬((closeExpired s r.date).openPositions.length < pm.maxPositions ∧
        cap * (11 / 10) ≤ (closeExpired s r.date).availableCapital) := by
      rintro ⟨hlt, -⟩
      omega
    by_cases hsig : (longSignal pm strategy r || shortSignal pm strategy r) = true
    · rw [if_pos hsig, if_neg hno]
    · rw [if_neg hsig]
  · intro pm strategy cap cost hold simDf
    unfold runSimulation
    exact foldl_inv (fun st => st.openPositions.length ≤ pm.maxPositions)
      (portStep pm strategy cap cost hold)
      (fun st b hP => hstep pm strategy cap cost hold st b hP)
      simDf (initPortState pm) (Nat.zero_le _)

/-- Witness for C6: the position limit rejects at the cap and holds at the
end of a concrete run of each engine. -/
theorem c6_max_positions_witness :
    entryStep exCfgZero .lstm 0 (initState exCfgZero) exRowLong = some (initState exCfgZero) ∧
      ((runBacktest exCfg .lstm [exRowLong]).getD (initState exCfg)).positions.length ≤
        exCfg.maxPositions ∧
      (runSimulation exPm .lstm 100 2 10 [exRowLong]).openPositions.length ≤ exPm.maxPositions :=
  ⟨c6_max_positions.1 exCfgZero .lstm 0 (initState exCfgZero) exRowLong (by decide),
    c6_max_positions.2.2.1 exCfg .lstm [exRowLong]
      ((runBacktest exCfg .lstm [exRowLong]).getD (initState exCfg)) (by rfl),
    c6_max_positions.2.2.2.2.2 exPm .lstm 100 2 10 [exRowLong]⟩

/-! ## C2 -/

/-- The long row of `exRowLong`'s pair repeated on the next day. -/
def exRowLongNext : Row := { exRowLong with date := 1 }

theorem entryStep_nodup_keys {cfg : BtConfig} {mc : ModelCol} {date : Nat} {s : BtState}
    {r : Row} {s' : BtState} (h : entryStep cfg mc date s r = some s')
    (hnd : (s.positions.map Prod.fst).Nodup) : (s'.positions.map Prod.fst).Nodup := by
  rcases entryStep_cases h with rfl | ⟨hc, hm, dir, hop⟩
  · exact hnd
  · obtain ⟨-, rfl⟩ := openPosition_eq_some hop
    have hmem : r.pairId ∉ s.positions.map Prod.fst := (containsPair_false_iff _ _).1 hc
    simp only [List.map_append, List.map_cons, List.map_nil]
    rw [List.nodup_append]
    exact ⟨hnd, List.nodup_singleton _, by simpa using hmem⟩

theorem closePosition_nodup_keys (cfg : BtConfig) (s : BtState) (pid : Nat) (spread : ℚ)
    (date : Nat) (reason : String) (hnd : (s.positions.map Prod.fst).Nodup) :
    ((closePosition cfg s pid spread date reason).positions.map Prod.fst).Nodup :=
  (closePosition_keys_sublist cfg s pid spread date reason).nodup hnd

theorem processExits_nodup_keys (cfg : BtConfig) (s : BtState) (dayData : List Row) (date : Nat)
    (hnd : (s.positions.map Prod.fst).Nodup) :
    ((processExits cfg s dayData date).positions.map Prod.fst).Nodup :=
  (processExits_keys_sublist cfg dayData date s).nodup hnd

theorem processDate_nodup_keys {cfg : BtConfig} {mc : ModelCol} {df : List Row} {s : BtState}
    {date : Nat} {s' : BtState} (h : processDate cfg mc df s date = some s')
    (hnd : (s.positions.map Prod.fst).Nodup) : (s'.positions.map Prod.fst).Nodup := by
  simp only [processDate] at h
  cases hfold : foldSteps (entryStep cfg mc date) (processExits cfg s (rowsAt df date) date)
      (rowsAt df date) with
  | none => rw [hfold] at h; cases h
  | some s2 =>
    rw [hfold] at h
    cases h
    exact foldSteps_inv (fun st => (st.positions.map Prod.fst).Nodup) _
      (fun st b st' hP hst => entryStep_nodup_keys hst hP) _ _ _
      (processExits_nodup_keys cfg s (rowsAt df date) date hnd) hfold

/-- C2 (amended, price engine): the `positions` dict keys stay duplicate
free through every entry step, every close, and to the end of every run —
at most one open position per pair id at every point. -/
theorem c2_single_position_price :
    (∀ (cfg : BtConfig) (mc : ModelCol) (date : Nat) (s : BtState) (r : Row) (s' : BtState),
        entryStep cfg mc date s r = some s' →
        (s.positions.map Prod.fst).Nodup → (s'.positions.map Prod.fst).Nodup) ∧
    (∀ (cfg : BtConfig) (s : BtState) (pid : Nat) (spread : ℚ) (date : Nat) (reason : String),
        (s.positions.map Prod.fst).Nodup →
        ((closePosition cfg s pid spread date reason).positions.map Prod.fst).Nodup) ∧
    (∀ (cfg : BtConfig) (mc : ModelCol) (df : List Row) (s : BtState),
        runBacktest cfg mc df = some s → (s.positions.map Prod.fst).Nodup) := by
  refine ⟨fun cfg mc date s r s' h hnd => entryStep_nodup_keys h hnd,
    fun cfg s pid spread date reason hnd => closePosition_nodup_keys cfg s pid spread date reason hnd,
    ?_⟩
  intro cfg mc df s h
  simp only [runBacktest] at h
  cases hfold : foldSteps (processDate cfg mc df) (initState cfg)
      (uniqueDates (df.map Row.date)) with
  | none => rw [hfold] at h; cases h
  | some s1 =>
    rw [hfold] at h
    cases h
    have h1 : (s1.positions.map Prod.fst).Nodup :=
      foldSteps_inv (fun st => (st.positions.map Prod.fst).Nodup) _
        (fun st b st' hP hst => processDate_nodup_keys hst hP) _ _ _ (List.nodup_nil) hfold
    exact (drain_keys_sublist cfg (rowsAt df (maxDate df)) (maxDate df) s1).nodup h1

/-- Witness for C2's price-engine invariant at a concrete run. -/
theorem c2_single_position_price_witness :
    (((runBacktest exCfg .lstm [exRowLong]).getD (initState exCfg)).positions.map
        Prod.fst).Nodup :=
  c2_single_position_price.2.2 exCfg .lstm [exRowLong]
    ((runBacktest exCfg .lstm [exRowLong]).getD (initState exCfg)) (by rfl)

/-- Counterexample to C2 as stated: in the horizon-based engine, a stream
whose every row belongs to the same pair produces two simultaneously open
positions (the engine records no pair identity and re-enters the same pair
on the next day). -/
theorem c2_counterexample :
    (runSimulation exPm .lstm 100 2 10 [exRowLong, exRowLongNext]).openPositions.length = 2 ∧
      ∀ r ∈ [exRowLong, exRowLongNext], r.pairId = 0 := by
  constructor
  · decide
  · decide

/-! ## C3 -/

/-- The long row with a second pair id on the same date. -/
def exRowLongPairOne : Row := { exRowLong with pairId := 1 }

theorem entryStep_equityCurve {cfg : BtConfig} {mc : ModelCol} {date : Nat} {s : BtState}
    {r : Row} {s' : BtState} (h : entryStep cfg mc date s r = some s') :
    s'.equityCurve = s.equityCurve := by
  rcases entryStep_cases h with rfl | ⟨-, -, dir, hop⟩
  · rfl
  · obtain ⟨-, rfl⟩ := openPosition_eq_some hop
    rfl

theorem exitStepFor_equityCurve (cfg : BtConfig) (dayData : List Row) (date : Nat)
    (st : BtState) (pid : Nat) :
    (exitStepFor cfg dayData date st pid).equityCurve = st.equityCurve := by
  unfold exitStepFor
  split
  · rfl
  · split
    · exact closePosition_equityCurve _ _ _ _ _ _
    · rfl

theorem drainStep_equityCurve (cfg : BtConfig) (lastData : List Row) (lastDate : Nat)
    (st : BtState) (pid : Nat) :
    (drainStep cfg lastData lastDate st pid).equityCurve = st.equityCurve := by
  unfold drainStep
  split
  · rfl
  · exact closePosition_equityCurve _ _ _ _ _ _

theorem processExits_equityCurve (cfg : BtConfig) (s : BtState) (dayData : List Row)
    (date : Nat) : (processExits cfg s dayData date).equityCurve = s.equityCurve :=
  foldl_inv (fun st => st.equityCurve = s.equityCurve) (exitStepFor cfg dayData date)
    (fun st pid hP => (exitStepFor_equityCurve cfg dayData date st pid).trans hP)
    (s.positions.map Prod.fst) s rfl

theorem drain_equityCurve (cfg : BtConfig) (s : BtState) (lastData : List Row)
    (lastDate : Nat) : (drain cfg s lastData lastDate).equityCurve = s.equityCurve :=
  foldl_inv (fun st => st.equityCurve = s.equityCurve) (drainStep cfg lastData lastDate)
    (fun st pid hP => (drainStep_equityCurve cfg lastData lastDate st pid).trans hP)
    (s.positions.map Prod.fst) s rfl

theorem processDate_equityCurve {cfg : BtConfig} {mc : ModelCol} {df : List Row} {s : BtState}
    {date : Nat} {s' : BtState} (h : processDate cfg mc df s date = some s') :
    s'.equityCurve.map Prod.fst = s.equityCurve.map Prod.fst ++ [date] := by
  simp only [processDate] at h
  cases hfold : foldSteps (entryStep cfg mc date) (processExits cfg s (rowsAt df date) date)
      (rowsAt df date) with
  | none => rw [hfold] at h; cases h
  | some s2 =>
    rw [hfold] at h
    cases h
    have h1 : s2.equityCurve = s.equityCurve := by
      have h2 := foldSteps_inv
        (fun st => st.equityCurve = (processExits cfg s (rowsAt df date) date).equityCurve) _
        (fun st b st' hP hst => (entryStep_equityCurve hst).trans hP) _ _ _ rfl hfold
      rw [h2, processExits_equityCurve]
    simp [markToMarket, h1]

theorem runFold_equityCurve (cfg : BtConfig) (mc : ModelCol) (df : List Row) :
    ∀ (dates : List Nat) (s0 s : BtState),
      foldSteps (processDate cfg mc df) s0 dates = some s →
      s.equityCurve.map Prod.fst = s0.equityCurve.map Prod.fst ++ dates := by
  intro dates
  induction dates with
  | nil =>
    intro s0 s h
    simp only [foldSteps, Option.some.injEq] at h
    subst h
    simp
  | cons d rest ih =>
    intro s0 s h
    simp only [foldSteps] at h
    cases hd : processDate cfg mc df s0 d with
    | none => rw [hd] at h; cases h
    | some s1 =>
      rw [hd] at h
      rw [ih s1 s h, processDate_equityCurve hd]
      simp

theorem uniqueDates_go_pairwise :
    ∀ (l : List Nat) (acc : List Nat),
      l.Pairwise (· ≤ ·) → acc.Pairwise (· < ·) → (∀ a ∈ acc, ∀ d ∈ l, a ≤ d) →
      (l.foldl (fun acc d => if d ∈ acc then acc else acc ++ [d]) acc).Pairwise (· < ·) := by
  intro l
  induction l with
  | nil =>
    intro acc _ hacc _
    exact hacc
  | cons d rest ih =>
    intro acc hle hacc hbound
    have hdrest : ∀ x ∈ rest, d ≤ x := (List.pairwise_cons.1 hle).1
    have hrest : rest.Pairwise (· ≤ ·) := (List.pairwise_cons.1 hle).2
    simp only [List.foldl_cons]
    by_cases hmem : d ∈ acc
    · rw [if_pos hmem]
      exact ih acc hrest hacc (fun a ha x hx => hbound a ha x (List.mem_cons_of_mem d hx))
    · rw [if_neg hmem]
      apply ih _ hrest
      · rw [List.pairwise_append]
        refine ⟨hacc, List.pairwise_singleton _ _, ?_⟩
        intro a ha b hb
        rw [List.mem_singleton] at hb
        subst hb
        have hle' : a ≤ b := hbound a ha b (List.mem_cons_self b rest)
        have hne : a ≠ b := fun hab => hmem (hab ▸ ha)
        omega
      · intro a ha x hx
        rcases List.mem_append.1 ha with ha' | ha''
        · exact hbound a ha' x (List.mem_cons_of_mem d hx)
        · rw [List.mem_singleton] at ha''
          subst ha''
          exact hdrest x hx

theorem uniqueDates_pairwise (l : List Nat) (h : l.Pairwise (· ≤ ·)) :
    (uniqueDates l).Pairwise (· < ·) :=
  uniqueDates_go_pairwise l [] h List.Pairwise.nil (by simp)

theorem portStep_equityHistory_len (pm : PortCfg) (strategy : Strategy) (cap cost : ℚ)
    (hold : Nat) (s : PortState) (r : Row) :
    (portStep pm strategy cap cost hold s r).equityHistory.length =
      s.equityHistory.length + 1 := by
  simp only [portStep]
  split_ifs <;> simp [closeExpired]

/-- C3 (amended): the price-based engine appends exactly one equity point
per unique processed date, in first-occurrence order — strictly
chronological when the input stream is sorted — and the point for a date is
appended only after all of that date's rows were processed (the
mark-to-market step is last); the horizon-based engine instead appends one
equity point per input row. -/
theorem c3_equity_curve :
    (∀ (cfg : BtConfig) (mc : ModelCol) (df : List Row) (s : BtState),
        runBacktest cfg mc df = some s →
        s.equityCurve.map Prod.fst = uniqueDates (df.map Row.date)) ∧
    (∀ (cfg : BtConfig) (mc : ModelCol) (df : List Row) (s : BtState),
        runBacktest cfg mc df = some s → (df.map Row.date).Pairwise (· ≤ ·) →
        (s.equityCurve.map Prod.fst).Pairwise (· < ·)) ∧
    (∀ (pm : PortCfg) (strategy : Strategy) (cap cost : ℚ) (hold : Nat) (simDf : List Row),
        (runSimulation pm strategy cap cost hold simDf).equityHistory.length =
          simDf.length) := by
  have ha : ∀ (cfg : BtConfig) (mc : ModelCol) (df : List Row) (s : BtState),
      runBacktest cfg mc df = some s →
      s.equityCurve.map Prod.fst = uniqueDates (df.map Row.date) := by
    intro cfg mc df s h
    simp only [runBacktest] at h
    cases hfold : foldSteps (processDate cfg mc df) (initState cfg)
        (uniqueDates (df.map Row.date)) with
    | none => rw [hfold] at h; cases h
    | some s1 =>
      rw [hfold] at h
      cases h
      rw [drain_equityCurve,
        runFold_equityCurve cfg mc df (uniqueDates (df.map Row.date)) (initState cfg) s1 hfold]
      simp [initState]
  refine ⟨ha, ?_, ?_⟩
  · intro cfg mc df s h hsorted
    rw [ha cfg mc df s h]
    exact uniqueDates_pairwise _ hsorted
  · intro pm strategy cap cost hold simDf
    have hgen : ∀ (l : List Row) (s : PortState),
        (l.foldl (portStep pm strategy cap cost hold) s).equityHistory.length =
          s.equityHistory.length + l.length := by
      intro l
      induction l with
      | nil => intro s; simp
      | cons r rest ih =>
        intro s
        simp only [List.foldl_cons, ih, portStep_equityHistory_len, List.length_cons]
        omega
    unfold runSimulation
    rw [hgen]
    simp [initPortState]

/-- Witness for C3's price-engine part at a concrete three-day run. -/
theorem c3_equity_curve_witness :
    ((runBacktest exCfg .lstm [exRowLong, exRowLongNext]).getD
        (initState exCfg)).equityCurve.map Prod.fst =
      uniqueDates (List.map Row.date [exRowLong, exRowLongNext]) :=
  c3_equity_curve.1 exCfg .lstm [exRowLong, exRowLongNext]
    ((runBacktest exCfg .lstm [exRowLong, exRowLongNext]).getD (initState exCfg)) (by rfl)

/-- Counterexample to C3 as stated: in the horizon-based engine, two rows
sharing one date produce two equity points for that single processed date
(one point per row, appended after each row rather than after the whole
date). -/
theorem c3_counterexample :
    (runSimulation exPm .lstm 100 2 10 [exRowLong, exRowLongPairOne]).equityHistory.length = 2 ∧
      uniqueDates (List.map Row.date [exRowLong, exRowLongPairOne]) = [0] := by
  constructor
  · decide
  · decide

/-! ## C1 -/

/-- A row opening pair 9 on day 0 of a two-day stream. -/
def exRowOpenA : Row :=
  { date := 0, pairId := 9, zScore := -2, spread := 10, ridgePred := 1, lstmPred := 1,
    targetReturn := 0, targetDirection := 1 }

/-- A non-actionable row for pair 8 on day 1; pair 9 has no row on the
final day. -/
def exRowOpenB : Row :=
  { date := 1, pairId := 8, zScore := 0, spread := 5, ridgePred := 0, lstmPred := 0,
    targetReturn := 0, targetDirection := 0 }

/-- A price-engine stream whose opened pair is absent from the final date. -/
def exDfOpenEnd : List Row := [exRowOpenA, exRowOpenB]

theorem drainFold_keys_sublist (cfg : BtConfig) (lastData : List Row) (lastDate : Nat) :
    ∀ (todo : List Nat) (s : BtState),
      List.Sublist ((todo.foldl (drainStep cfg lastData lastDate) s).positions.map Prod.fst)
        (s.positions.map Prod.fst) :=
  fun todo s =>
    foldl_inv (fun st => List.Sublist (st.positions.map Prod.fst) (s.positions.map Prod.fst))
      (drainStep cfg lastData lastDate)
      (fun st pid hP => List.Sublist.trans (drainStep_keys_sublist cfg lastData lastDate st pid) hP)
      todo s (List.Sublist.refl _)

theorem drainFold_mem (cfg : BtConfig) (lastData : List Row) (lastDate : Nat) :
    ∀ (todo : List Nat) (s : BtState) (pid : Nat),
      pid ∈ (todo.foldl (drainStep cfg lastData lastDate) s).positions.map Prod.fst →
      pid ∈ todo →
      lastData.find? (fun r => decide (r.pairId = pid)) = none := by
  intro todo
  induction todo with
  | nil =>
    intro s pid _ hmem
    exact absurd hmem (List.not_mem_nil pid)
  | cons q rest ih =>
    intro s pid h hmem
    simp only [List.foldl_cons] at h
    rcases List.mem_cons.1 hmem with rfl | hrest
    · by_cases hq : lastData.find? (fun r => decide (r.pairId = pid)) = none
      · exact hq
      · exfalso
        have h1 : pid ∉ (drainStep cfg lastData lastDate s pid).positions.map Prod.fst := by
          unfold drainStep
          cases hf : lastData.find? (fun r => decide (r.pairId = pid)) with
          | none => exact absurd hf hq
          | some row => exact closePosition_not_mem_keys _ _ _ _ _ _
        exact h1 ((drainFold_keys_sublist cfg lastData lastDate rest
          (drainStep cfg lastData lastDate s pid)).subset h)
    · exact ih (drainStep cfg lastData lastDate s q) pid h hrest

/-- C1 (amended): the price-based engine's final pass closes a still-open
position only when its pair has a row at the final (maximum) date — any
position left open after the run belongs to a pair with no final-date row,
and the close reason is passed but never recorded; the horizon-based engine
has no end-of-backtest pass at all, so runs can end with open positions. -/
theorem c1_end_drain :
    (∀ (cfg : BtConfig) (mc : ModelCol) (df : List Row) (s : BtState),
        runBacktest cfg mc df = some s →
        ∀ pid ∈ s.positions.map Prod.fst,
          (rowsAt df (maxDate df)).find? (fun r => decide (r.pairId = pid)) = none) ∧
    (∃ (pm : PortCfg) (strategy : Strategy) (cap cost : ℚ) (hold : Nat) (simDf : List Row),
        (runSimulation pm strategy cap cost hold simDf).openPositions.length ≠ 0) := by
  constructor
  · intro cfg mc df s h pid hmem
    simp only [runBacktest] at h
    cases hfold : foldSteps (processDate cfg mc df) (initState cfg)
        (uniqueDates (df.map Row.date)) with
    | none => rw [hfold] at h; cases h
    | some s1 =>
      rw [hfold] at h
      cases h
      unfold drain at hmem
      have htodo : pid ∈ s1.positions.map Prod.fst :=
        (drainFold_keys_sublist cfg (rowsAt df (maxDate df)) (maxDate df)
          (s1.positions.map Prod.fst) s1).subset hmem
      exact drainFold_mem cfg (rowsAt df (maxDate df)) (maxDate df)
        (s1.positions.map Prod.fst) s1 pid hmem htodo
  · exact ⟨exPm, .lstm, 100, 2, 10, [exRowLong], by decide⟩

/-- Witness for C1's price-engine part: pair 9 stays open because the final
date has no row for it. -/
theorem c1_end_drain_witness :
    (rowsAt exDfOpenEnd (maxDate exDfOpenEnd)).find? (fun r => decide (r.pairId = 9)) = none :=
  c1_end_drain.1 exCfg .lstm exDfOpenEnd
    ((runBacktest exCfg .lstm exDfOpenEnd).getD (initState exCfg)) (by rfl) 9 (by decide)

/-- Counterexample to C1 as stated: a one-row horizon-engine stream whose
single entry's scheduled close date lies past the final date ends the run
with a nonempty set of open positions — nothing is force-closed. -/
theorem c1_counterexample :
    (runSimulation exPm .lstm 100 2 10 [exRowLong]).openPositions.length = 1 := by
  decide

end PairSim
